import Mathlib

/-!
Shallow embedding of the Context-MCP document index engine
(`src/lib/DocumentStore.ts`, `src/lib/SearchIndex.ts`, `src/lib/FileWatcher.ts`)
and proofs about its document-store, search-index and reconciler operations.

JavaScript strings are modelled as Lean `String`/`List Char`; JS `Map`s as
insertion-ordered association lists; the filesystem of durable per-document
slots as the list of ids whose slot file exists; `new Date().toISOString()`
as an explicit `now : String` parameter giving the timestamp observed during
the call; the lunr full-text primitive as an abstract search function passed
to `search` as a parameter.
-/

namespace ContextMCP

/-! ### JavaScript character classes (`\s`, `\w`, `String.prototype.trim`) -/

/-- JavaScript whitespace: the characters matched by `\s` and removed by
`String.prototype.trim` (ASCII whitespace, NBSP, BOM, and the Unicode
space separators), identified by code point. -/
def isWS (c : Char) : Bool :=
  c.toNat = 0x20 || (0x9 ≤ c.toNat && c.toNat ≤ 0xD) ||
  c.toNat = 0xA0 || c.toNat = 0x1680 ||
  (0x2000 ≤ c.toNat && c.toNat ≤ 0x200A) ||
  c.toNat = 0x2028 || c.toNat = 0x2029 || c.toNat = 0x202F ||
  c.toNat = 0x205F || c.toNat = 0x3000 || c.toNat = 0xFEFF

/-- JavaScript `\w`: ASCII letters, digits and underscore. -/
def isWordChar (c : Char) : Bool :=
  ('a' ≤ c && c ≤ 'z') || ('A' ≤ c && c ≤ 'Z') || ('0' ≤ c && c ≤ '9') || c = '_'

/-- The character class `[\w\s\-_]` kept by `cleanQuery`'s first replace. -/
def keepChar (c : Char) : Bool :=
  isWordChar c || isWS c || c = '-' || c = '_'

/-- One step of `query.replace(/[^\w\s\-_]/g, ' ')`. -/
def stripChar (c : Char) : Char :=
  if keepChar c then c else ' '

/-! ### JS string primitives on `List Char` -/

/-- Leading-whitespace removal (left half of `trim`). -/
def trimLeftList (l : List Char) : List Char := l.dropWhile isWS

/-- Trailing-whitespace removal (right half of `trim`). -/
def trimRightList (l : List Char) : List Char :=
  (l.reverse.dropWhile isWS).reverse

/-- `String.prototype.trim` on the character list. -/
def trimList (l : List Char) : List Char :=
  trimRightList (trimLeftList l)

/-- `String.prototype.trim`. -/
def jsTrim (s : String) : String := String.mk (trimList s.data)

/-- `replace(/\s+/g, ' ')`: every maximal whitespace run becomes one space
(a whitespace character starts a run unless the collapsed tail already
begins with the space standing for that run). -/
def collapseWS : List Char → List Char
  | [] => []
  | c :: t =>
    if isWS c then
      let r := collapseWS t
      if r.head? = some ' ' then r else ' ' :: r
    else c :: collapseWS t

/-- Maximal runs of non-whitespace characters: the non-empty tokens of
`split(/\s+/)` (used for word counts, query words and `cleanQuery`). -/
def wordsOf : List Char → List (List Char)
  | [] => []
  | c :: t =>
    if isWS c then wordsOf t
    else
      match t.head? with
      | none => [c] :: wordsOf t
      | some d =>
        if isWS d then [c] :: wordsOf t
        else
          match wordsOf t with
          | w :: ws => (c :: w) :: ws
          | [] => [[c]]

/-- Join a token list with single spaces (the shape produced by
strip + collapse + trim normalization). -/
def joinW : List (List Char) → List Char
  | [] => []
  | [w] => w
  | w :: ws => w ++ ' ' :: joinW ws

/-- Split at every occurrence of a single separator character, keeping
empty pieces (the behaviour of JS `split('<sep>')`). -/
def splitOnChar (sep : Char) : List Char → List (List Char)
  | [] => [[]]
  | c :: t =>
    if c = sep then [] :: splitOnChar sep t
    else
      match splitOnChar sep t with
      | w :: ws => (c :: w) :: ws
      | [] => [[c]]

/-- JavaScript `split(' ')`. -/
def splitSpace (l : List Char) : List (List Char) := splitOnChar ' ' l

/-- JavaScript `String.prototype.indexOf` for a substring. -/
def indexOfSub (needle : List Char) : List Char → Option Nat
  | [] => if needle = [] then some 0 else none
  | c :: t =>
    if needle.isPrefixOf (c :: t) then some 0
    else (indexOfSub needle t).map (· + 1)

/-! ### Insertion-ordered association lists (JS `Map`) -/

/-- `Map.prototype.get`. -/
def lookupAssoc {α : Type} : List (String × α) → String → Option α
  | [], _ => none
  | kv :: m, k => if kv.1 = k then some kv.2 else lookupAssoc m k

/-- `Map.prototype.set`: replace in place if the key exists, else append. -/
def setAssoc {α : Type} : List (String × α) → String → α → List (String × α)
  | [], k, v => [(k, v)]
  | kv :: m, k, v => if kv.1 = k then (k, v) :: m else kv :: setAssoc m k v

/-- `Map.prototype.delete`. -/
def eraseAssoc {α : Type} (m : List (String × α)) (k : String) : List (String × α) :=
  m.filter (fun kv => if kv.1 = k then false else true)

/-! ### Data model (`src/types/index.ts`) -/

/-- `Document['type']`: the closed enumeration of supported formats. -/
inductive DocType
  | txt | md | pdf | docx | html | json
deriving DecidableEq, Repr

/-- `Document['metadata']`: the structured metadata block. The open
extension map (`[key: string]: any`) is modelled by `extra`. -/
structure DocMetadata where
  createdAt : String
  updatedAt : String
  size : Nat
  wordCount : Option Nat := none
  charCount : Option Nat := none
  tags : Option (List String) := none
  summary : Option String := none
  extra : List (String × String) := []
deriving DecidableEq, Repr

/-- `Partial<Document['metadata']>`: every key optional; extension-map
entries are carried in `extra`. -/
structure PartialMetadata where
  createdAt : Option String := none
  updatedAt : Option String := none
  size : Option Nat := none
  wordCount : Option Nat := none
  charCount : Option Nat := none
  tags : Option (List String) := none
  summary : Option String := none
  extra : List (String × String) := []
deriving DecidableEq, Repr

/-- JS object spread `{...base, ...p}` for metadata: keys present in `p`
override `base`, extension keys are merged with `p` winning. -/
def mergeMetadata (base : DocMetadata) (p : PartialMetadata) : DocMetadata where
  createdAt := p.createdAt.getD base.createdAt
  updatedAt := p.updatedAt.getD base.updatedAt
  size := p.size.getD base.size
  wordCount := p.wordCount <|> base.wordCount
  charCount := p.charCount <|> base.charCount
  tags := p.tags <|> base.tags
  summary := p.summary <|> base.summary
  extra := p.extra.foldl (fun acc kv => setAssoc acc kv.1 kv.2) base.extra

/-- A canonical document record (`Document` in `src/types/index.ts`). -/
structure Document where
  id : String
  title : String
  content : String
  path : String
  type : DocType
  metadata : DocMetadata
deriving DecidableEq, Repr

/-- `Partial<Document>`: the payload of `updateDocument`. -/
structure PartialDocument where
  id : Option String := none
  title : Option String := none
  content : Option String := none
  path : Option String := none
  type : Option DocType := none
  metadata : Option PartialMetadata := none
deriving DecidableEq, Repr

/-- `ProcessedFile`: the Content Extractor's output. -/
structure ProcessedFile where
  content : String
  type : DocType
  metadata : Option PartialMetadata := none
deriving DecidableEq, Repr

/-- `IndexEntry`: the Search Index's truncated projection of a document. -/
structure IndexEntry where
  id : String
  title : String
  content : String
  tags : List String
deriving DecidableEq, Repr

/-- One record of the built lunr index (`this.add({id, title, content,
tags: doc.tags.join(' ')})` inside `rebuildIndex`). -/
structure LunrDoc where
  id : String
  title : String
  content : String
  tags : String
deriving DecidableEq, Repr

/-- A raw hit returned by `lunr.Index.search` (`ref` plus a relevance
score; the float score is modelled as a rational). -/
structure RawHit where
  ref : String
  score : Rat
deriving DecidableEq, Repr

/-- `SearchResult` as built by `SearchIndex.search` (the `metadata`
placeholder `{}` is left to the caller and not modelled). -/
structure SearchResult where
  id : String
  title : String
  score : Rat
  snippet : String
deriving DecidableEq, Repr

/-- `OperationResult<T>`: the uniform `{success, data?, error?}` shape. -/
structure OperationResult (α : Type) where
  success : Bool
  data : Option α := none
  error : Option String := none
deriving DecidableEq, Repr

/-- A successful result carrying `a`. -/
def OperationResult.ok {α : Type} (a : α) : OperationResult α :=
  { success := true, data := some a }

/-- A failed result carrying a message. -/
def OperationResult.fail {α : Type} (msg : String) : OperationResult α :=
  { success := false, error := some msg }

/-! ### Document Store (`src/lib/DocumentStore.ts`)

State: the in-memory `metadata` map (insertion-ordered), the set of ids
whose durable slot `data/documents/<id>.json` exists on disk (`files`),
and the persisted manifest `data/metadata/documents.json` (`manifest`). -/

structure StoreState where
  metadata : List (String × Document)
  files : List String
  manifest : List Document
deriving DecidableEq, Repr

/-- Node's `path.basename`: the final path component. -/
def basename (p : String) : String :=
  match (((splitOnChar '/' p.data).map String.mk).filter (fun s => s ≠ "")).getLast? with
  | some b => b
  | none => ""

/-- `content.split(/\s+/).filter(word => word.length > 0).length`. -/
def jsWordCount (content : String) : Nat :=
  (wordsOf content.data).length

/-- Mark a document's durable slot as written (`fs.writeFile` of
`data/documents/<id>.json`). -/
def writeSlot (files : List String) (id : String) : List String :=
  if id ∈ files then files else id :: files

namespace DocumentStore

/-- `saveMetadata`: rewrite the full manifest from the in-memory map. -/
def saveMetadata (st : StoreState) : StoreState :=
  { st with manifest := st.metadata.map Prod.snd }

/-- The document record constructed by `addDocument`: the spread
`{createdAt, updatedAt, size, wordCount, charCount, ...metadata}` lets
override keys win over the computed values, and `title` is
`metadata?.tags?.[0] || filename`. -/
def buildDocument (filePath content : String) (ty : DocType)
    (overrides : Option PartialMetadata) (id now : String) : Document :=
  let filename := basename filePath
  let firstTag : Option String := (overrides.bind PartialMetadata.tags).bind List.head?
  { id := id
    title := match firstTag with
             | some t => if t = "" then filename else t
             | none => filename
    content := content
    path := filePath
    type := ty
    metadata :=
      mergeMetadata
        { createdAt := now
          updatedAt := now
          size := content.utf8ByteSize
          wordCount := some (jsWordCount content)
          charCount := some content.length }
        (overrides.getD {}) }

/-- `addDocument(filePath, content, type, metadata?)`. The fresh `nanoid()`
and the timestamp observed by `new Date()` are the explicit `id`/`now`
parameters. -/
def addDocument (st : StoreState) (filePath content : String) (ty : DocType)
    (overrides : Option PartialMetadata) (id now : String) :
    StoreState × OperationResult Document :=
  let doc := buildDocument filePath content ty overrides id now
  let st := { st with files := writeSlot st.files id }
  let st := { st with metadata := setAssoc st.metadata id doc }
  let st := saveMetadata st
  (st, .ok doc)

/-- The self-healing eviction used by `getDocument`/`getDocumentByPath`
when a record's durable slot is missing: drop the in-memory entry and
rewrite the manifest. -/
def evictDocument (st : StoreState) (docId : String) : StoreState :=
  saveMetadata { st with metadata := eraseAssoc st.metadata docId }

/-- `getDocument(id)`: return the in-memory record, self-healing by
evicting it when its durable slot is missing. -/
def getDocument (st : StoreState) (id : String) :
    StoreState × OperationResult Document :=
  match lookupAssoc st.metadata id with
  | none => (st, .fail ("Document not found: " ++ id))
  | some doc =>
    if id ∈ st.files then (st, .ok doc)
    else
      (evictDocument st id, .fail ("Document file missing: " ++ id))

/-- `getDocumentByPath(filePath)`: linear scan in insertion order for the
first record whose `path` matches, with the same self-healing eviction
(the scan stops at the first match even when it gets evicted). -/
def getDocumentByPath (st : StoreState) (filePath : String) :
    StoreState × OperationResult Document :=
  match st.metadata.find? (fun kv => kv.2.path = filePath) with
  | none => (st, .fail ("No document found for path: " ++ filePath))
  | some kv =>
    if kv.2.id ∈ st.files then (st, .ok kv.2)
    else
      (evictDocument st kv.2.id, .fail ("Document file missing: " ++ kv.2.id))

/-- `updateDocument(id, updates)`: `{...existingDoc, ...updates,
id: existingDoc.id, metadata: {...existingDoc.metadata, ...updates.metadata,
updatedAt: now}}` — only `id` is explicitly pinned; `path` comes from the
spread of `updates` when present. -/
def updateDocument (st : StoreState) (id : String) (updates : PartialDocument)
    (now : String) : StoreState × OperationResult Document :=
  match lookupAssoc st.metadata id with
  | none => (st, .fail ("Document not found: " ++ id))
  | some existingDoc =>
    let merged := mergeMetadata existingDoc.metadata (updates.metadata.getD {})
    let updatedDoc : Document :=
      { id := existingDoc.id
        title := updates.title.getD existingDoc.title
        content := updates.content.getD existingDoc.content
        path := updates.path.getD existingDoc.path
        type := updates.type.getD existingDoc.type
        metadata := { merged with updatedAt := now } }
    let st := { st with files := writeSlot st.files id }
    let st := { st with metadata := setAssoc st.metadata id updatedDoc }
    let st := saveMetadata st
    (st, .ok updatedDoc)

end DocumentStore

/-! ### Search Index (`src/lib/SearchIndex.ts`)

State: the built lunr index object (`none` is the "no index" state), the
in-memory `documents` entry map, and the persisted
`data/index/search.json` artifact (`diskIndex`). -/

structure SearchIndexState where
  index : Option (List LunrDoc)
  documents : List (String × IndexEntry)
  diskIndex : Option (List LunrDoc × List IndexEntry)
deriving DecidableEq, Repr

namespace SearchIndex

/-- `truncateContent(content, maxLength)`: identity below the cap,
otherwise `slice(0, maxLength) + '...'`. -/
def truncateContent (content : String) (maxLength : Nat) : String :=
  if content.length ≤ maxLength then content
  else String.mk (content.data.take maxLength) ++ "..."

/-- The lunr document registered for one entry during `rebuildIndex`
(`{id, title, content, tags: doc.tags.join(' ')}`). -/
def toLunrDoc (e : IndexEntry) : LunrDoc :=
  { id := e.id, title := e.title, content := e.content
    tags := String.intercalate " " e.tags }

/-- `saveIndex()`: returns without writing when the index object is null,
otherwise rewrites the persisted artifact wholesale. -/
def saveIndex (st : SearchIndexState) : SearchIndexState :=
  match st.index with
  | none => st
  | some idx => { st with diskIndex := some (idx, st.documents.map Prod.snd) }

/-- `rebuildIndex()`: with zero entries drop to the "no index" state,
otherwise build a fresh lunr index over every current entry; then save. -/
def rebuildIndex (st : SearchIndexState) : SearchIndexState :=
  let documents := st.documents.map Prod.snd
  if documents.length = 0 then
    saveIndex { st with index := none }
  else
    saveIndex { st with index := some (documents.map toLunrDoc) }

/-- The Index Entry derived from a document by `addDocument` /
`rebuildFromDocuments` (content truncated to the 10,000-character cap). -/
def mkEntry (doc : Document) : IndexEntry :=
  { id := doc.id
    title := doc.title
    content := truncateContent doc.content 10000
    tags := doc.metadata.tags.getD [] }

/-- `SearchIndex.addDocument(doc)`: insert-or-replace the entry, rebuild. -/
def addDocument (st : SearchIndexState) (doc : Document) : SearchIndexState :=
  rebuildIndex { st with documents := setAssoc st.documents doc.id (mkEntry doc) }

/-- `SearchIndex.updateDocument(doc)`: same as add — rebuild handles it. -/
def updateDocument (st : SearchIndexState) (doc : Document) : SearchIndexState :=
  addDocument st doc

/-- `removeDocument(id)`: fails when the id is not indexed, otherwise
deletes the entry and rebuilds. -/
def removeDocument (st : SearchIndexState) (id : String) :
    SearchIndexState × OperationResult Bool :=
  if (lookupAssoc st.documents id).isNone then
    (st, .fail ("Document not found in index: " ++ id))
  else
    (rebuildIndex { st with documents := eraseAssoc st.documents id }, .ok true)

/-- `rebuildFromDocuments(documents)`: clear all entries, re-derive them
from the given document list, rebuild. -/
def rebuildFromDocuments (st : SearchIndexState) (documents : List Document) :
    SearchIndexState × OperationResult Bool :=
  let st := { st with documents := [] }
  let st := { st with
    documents := documents.foldl (fun m d => setAssoc m d.id (mkEntry d)) st.documents }
  (rebuildIndex st, .ok true)

/-- `cleanQuery(query)`: trim, strip `[^\w\s\-_]` to spaces, collapse
whitespace, trim; a single surviving word longer than 2 characters is
expanded to `word* word`, anything else passes through. -/
def cleanQuery (query : String) : String :=
  let cleaned := jsTrim (String.mk (collapseWS (String.mk ((jsTrim query).data.map stripChar)).data))
  if cleaned = "" then ""
  else
    let words := ((splitSpace cleaned.data).map String.mk).filter (fun w => 0 < w.length)
    match words with
    | [w] => if 2 < w.length then w ++ "* " ++ w else cleaned
    | _ => cleaned

/-- `extractSnippet(content, query, contextLength)`: find the earliest
occurrence in the lowercased content of any query word longer than 1;
return a window of the given width around it with ellipses at cut
boundaries, or a truncated prefix when nothing matches literally. -/
def extractSnippet (content query : String) (contextLength : Nat) : String :=
  let lowerContent := content.data.map Char.toLower
  let queryWords := (wordsOf (query.data.map Char.toLower)).filter (fun w => 1 < w.length)
  let best : Option (Nat × List Char) :=
    queryWords.foldl
      (fun acc w =>
        match indexOfSub w lowerContent with
        | none => acc
        | some i =>
          match acc with
          | none => some (i, w)
          | some (bi, bw) => if i < bi then some (i, w) else some (bi, bw))
      none
  match best with
  | none => truncateContent content contextLength ++ "..."
  | some (bestIndex, bestWord) =>
    let start := bestIndex - contextLength / 2
    let stop := min content.length (bestIndex + bestWord.length + contextLength / 2)
    let snippet := String.mk ((content.data.drop start).take (stop - start))
    let snippet := if 0 < start then "..." ++ snippet else snippet
    let snippet := if stop < content.length then snippet ++ "..." else snippet
    snippet

/-- `search(query, limit)`. The lunr primitive (`this.index.search`) is the
abstract `oracle` parameter; raw hits are cut to `limit`, looked up in the
entry map, and hits without an entry are dropped. -/
def search (oracle : List LunrDoc → String → List RawHit)
    (st : SearchIndexState) (query : String) (limit : Nat) :
    OperationResult (List SearchResult) :=
  match st.index with
  | none => { success := true, data := some [] }
  | some idx =>
    if jsTrim query = "" then { success := true, data := some [] }
    else
      let cq := cleanQuery query
      if cq = "" then { success := true, data := some [] }
      else
        let results := oracle idx cq
        let searchResults := (results.take limit).filterMap (fun r =>
          match lookupAssoc st.documents r.ref with
          | none => none
          | some doc => some
              { id := doc.id, title := doc.title, score := r.score
                snippet := extractSnippet doc.content query 150 })
        { success := true, data := some searchResults }

end SearchIndex

/-! ### Filesystem Reconciler (`src/lib/FileWatcher.ts`)

The Content Extractor collaborator (`DocumentProcessor`) is abstracted as
a pure environment: a supported-extension predicate and an extraction
oracle (`processFile` succeeding with a `ProcessedFile` or failing). -/

structure WatchEnv where
  isSupported : String → Bool
  processFile : String → Option ProcessedFile

/-- The combined state the reconciler drives. -/
structure SystemState where
  store : StoreState
  searchIndex : SearchIndexState
deriving DecidableEq, Repr

namespace FileWatcher

/-- `handleFileAdded(filePath)`: ignore unsupported extensions; skip when a
live document already exists for the exact path; otherwise extract, add to
the store, then add to the search index. `newId`/`now` are the `nanoid()`
and timestamp the store call would observe. -/
def handleFileAdded (env : WatchEnv) (st : SystemState) (filePath : String)
    (newId now : String) : SystemState :=
  if !env.isSupported filePath then st
  else
    let (store, existingDoc) := DocumentStore.getDocumentByPath st.store filePath
    let st := { st with store := store }
    if existingDoc.success && existingDoc.data.isSome then st
    else
      match env.processFile filePath with
      | none => st
      | some pf =>
        let (store, addResult) :=
          DocumentStore.addDocument st.store filePath pf.content pf.type pf.metadata newId now
        let st := { st with store := store }
        match addResult.data with
        | none => st
        | some doc => { st with searchIndex := SearchIndex.addDocument st.searchIndex doc }

end FileWatcher

/-- Number of in-memory store records whose `path` is `p`. -/
def countPath (m : List (String × Document)) (p : String) : Nat :=
  m.countP (fun kv => kv.2.path = p)

/-- Spec-side description of query normalization, written from the spec's
words for comparison with the source-derived `SearchIndex.cleanQuery`:
the query's characters outside the word/hyphen/underscore/space classes
are stripped to spaces, whitespace is collapsed, and the surviving
tokens are space-joined — except that a single surviving token longer
than 2 characters becomes an OR of the verbatim term and its
prefix-wildcard form. -/
def specCleanQuery (query : String) : String :=
  match wordsOf (query.data.map stripChar) with
  | [w] =>
    if 2 < w.length then String.mk w ++ "* " ++ String.mk w
    else String.mk (joinW [w])
  | toks => String.mk (joinW toks)

/-! ### Concrete fixtures for witnesses and counterexamples -/

def emptyStore : StoreState := { metadata := [], files := [], manifest := [] }

def emptyIndexState : SearchIndexState :=
  { index := none, documents := [], diskIndex := none }

def fixtureMeta : DocMetadata := { createdAt := "T0", updatedAt := "T0", size := 1 }

def c1Doc : Document :=
  { id := "d1", title := "t", content := "c", path := "/a.txt", type := .txt
    metadata := fixtureMeta }

def c1Store : StoreState :=
  { metadata := [("d1", c1Doc)], files := ["d1"], manifest := [c1Doc] }

def c1Update : PartialDocument := { path := some "/b.txt" }

def c2Ov : PartialMetadata := { size := some 0 }

def c3Ov : PartialMetadata := { tags := some ["alpha"] }

def c4Doc : Document :=
  { id := "big", title := "t", content := String.mk (List.replicate 10001 'a')
    path := "/big.txt", type := .txt, metadata := fixtureMeta }

def c6Env : WatchEnv :=
  { isSupported := fun _ => true
    processFile := fun _ => some { content := "hello world", type := .txt } }

def c6State : SystemState := { store := emptyStore, searchIndex := emptyIndexState }

def c7State : SearchIndexState :=
  { index := some [], documents := [], diskIndex := none }

/-- An always-empty stand-in for the lunr search primitive. -/
def trivialOracle : List LunrDoc → String → List RawHit := fun _ _ => []

def c9Entry : IndexEntry := { id := "d1", title := "t", content := "c", tags := [] }

def c9State : SearchIndexState :=
  { index := some [SearchIndex.toLunrDoc c9Entry]
    documents := [("d1", c9Entry)]
    diskIndex := some ([SearchIndex.toLunrDoc c9Entry], [c9Entry]) }

def c10Entry : IndexEntry := { id := "a", title := "t", content := "c", tags := [] }

def c10State : SearchIndexState :=
  { index := some [SearchIndex.toLunrDoc c10Entry]
    documents := [("a", c10Entry)]
    diskIndex := none }

/-- An oracle whose raw hits include an id that is absent from the
in-memory entry map. -/
def c10Oracle : List LunrDoc → String → List RawHit :=
  fun _ _ => [{ ref := "a", score := 1 }, { ref := "b", score := 1 }]

/-! ### Association-list and string lemmas -/

theorem length_mk (l : List Char) : (String.mk l).length = l.length := rfl

theorem lookupAssoc_setAssoc_self {α : Type} (m : List (String × α)) (k : String) (v : α) :
    lookupAssoc (setAssoc m k v) k = some v := by
  induction m with
  | nil => simp [setAssoc, lookupAssoc]
  | cons kv m ih =>
    by_cases h : kv.1 = k
    · simp [setAssoc, h, lookupAssoc]
    · simp [setAssoc, h, lookupAssoc, ih]

theorem mem_of_lookupAssoc {α : Type} {m : List (String × α)} {k : String} {v : α}
    (h : lookupAssoc m k = some v) : (k, v) ∈ m := by
  induction m with
  | nil => simp [lookupAssoc] at h
  | cons kv m ih =>
    rw [lookupAssoc] at h
    by_cases hk : kv.1 = k
    · rw [if_pos hk] at h
      injection h with h
      cases kv with
      | mk a b =>
        cases hk
        cases h
        exact List.mem_cons_self _ _
    · rw [if_neg hk] at h
      exact List.mem_cons_of_mem _ (ih h)

theorem mem_writeSlot (files : List String) (id : String) : id ∈ writeSlot files id := by
  unfold writeSlot
  split
  · assumption
  · exact List.mem_cons_self _ _

theorem truncateContent_length (c : String) (m : Nat) :
    (SearchIndex.truncateContent c m).length
      = if c.length ≤ m then c.length else m + 3 := by
  unfold SearchIndex.truncateContent
  split
  · rfl
  · rename_i h
    have hm : m ≤ c.data.length := Nat.le_of_lt (Nat.lt_of_not_le h)
    rw [String.length_append, length_mk, List.length_take]
    rw [Nat.min_eq_left hm]
    rfl

theorem saveIndex_documents (st : SearchIndexState) :
    (SearchIndex.saveIndex st).documents = st.documents := by
  unfold SearchIndex.saveIndex
  rcases hs : st.index with _ | idx <;> simp [hs]

theorem rebuildIndex_documents (st : SearchIndexState) :
    (SearchIndex.rebuildIndex st).documents = st.documents := by
  unfold SearchIndex.rebuildIndex
  by_cases h : (List.map Prod.snd st.documents).length = 0
  · rw [if_pos h, saveIndex_documents]
  · rw [if_neg h, saveIndex_documents]

theorem addDocument_entry (st : SearchIndexState) (doc : Document) :
    lookupAssoc (SearchIndex.addDocument st doc).documents doc.id
      = some (SearchIndex.mkEntry doc) := by
  unfold SearchIndex.addDocument
  rw [rebuildIndex_documents]
  exact lookupAssoc_setAssoc_self _ _ _

/-! ### Claim theorems: Document Store -/

/-- C1 (counterexample): the claim that `updateDocument` leaves `path`
unchanged fails — updating document `d1` (stored at `/a.txt`) with a
payload containing `path: "/b.txt"` yields `/b.txt` in both the returned
and the stored record. -/
theorem updateDocument_path_overwritten_cex :
    ((DocumentStore.updateDocument c1Store "d1" c1Update "T1").2.data.map Document.path
      = some "/b.txt") ∧
    ((lookupAssoc (DocumentStore.updateDocument c1Store "d1" c1Update "T1").1.metadata
        "d1").map Document.path = some "/b.txt") ∧
    c1Doc.path = "/a.txt" ∧ ("/b.txt" : String) ≠ "/a.txt" := by
  refine ⟨?_, ?_, rfl, by decide⟩ <;> rfl

/-- C1 (amended): `DocumentStore.updateDocument` leaves `id` unchanged in
the returned and stored record even when the payload contains an `id`
entry, but `path` is taken from the payload when present and is only
unchanged when the payload omits it. -/
theorem updateDocument_id_immutable_path_from_payload
    (st : StoreState) (id now : String) (u : PartialDocument) (ex : Document)
    (h : lookupAssoc st.metadata id = some ex) :
    ∃ d, (DocumentStore.updateDocument st id u now).2.data = some d ∧
      lookupAssoc (DocumentStore.updateDocument st id u now).1.metadata id = some d ∧
      d.id = ex.id ∧
      d.path = u.path.getD ex.path := by
  unfold DocumentStore.updateDocument
  rw [h]
  exact ⟨_, rfl, by simp [DocumentStore.saveMetadata, lookupAssoc_setAssoc_self], rfl, rfl⟩

/-- C1 (witness): the amended statement at the concrete fixture. -/
theorem updateDocument_id_immutable_path_from_payload_witness :
    ∃ d, (DocumentStore.updateDocument c1Store "d1" c1Update "T1").2.data = some d ∧
      lookupAssoc (DocumentStore.updateDocument c1Store "d1" c1Update "T1").1.metadata
        "d1" = some d ∧
      d.id = c1Doc.id ∧
      d.path = c1Update.path.getD c1Doc.path :=
  updateDocument_id_immutable_path_from_payload c1Store "d1" "T1" c1Update c1Doc (by decide)

/-- C2 (counterexample): the claim fails for payloads that override the
computed metadata — adding `"ab"` with `{size: 0}` in the overrides stores
`size = 0`, not the UTF-8 byte length 2, because `...metadata` is spread
after the computed fields. -/
theorem addDocument_size_overridden_cex :
    ((DocumentStore.getDocument
        (DocumentStore.addDocument emptyStore "/a.txt" "ab" .txt (some c2Ov) "id1" "T0").1
        "id1").2.data.map (fun d => d.metadata.size) = some 0) ∧
    ("ab" : String).utf8ByteSize = 2 ∧ (0 : Nat) ≠ 2 := by
  refine ⟨?_, by decide, by decide⟩
  rfl

/-- C2 (amended): whenever the metadata overrides contain no `size`,
`wordCount`, `createdAt` or `updatedAt` entries, a successful
`addDocument` followed immediately by `getDocument` on the new id returns
the record with `size` equal to the UTF-8 byte length of the content,
`wordCount` equal to the number of whitespace-delimited non-empty tokens,
and `createdAt = updatedAt`. -/
theorem addDocument_computed_metadata
    (st : StoreState) (filePath content : String) (ty : DocType)
    (ov : Option PartialMetadata) (id now : String)
    (hov : ∀ p, ov = some p →
      p.size = none ∧ p.wordCount = none ∧ p.createdAt = none ∧ p.updatedAt = none) :
    ∃ doc,
      (DocumentStore.addDocument st filePath content ty ov id now).2.data = some doc ∧
      (DocumentStore.getDocument
          (DocumentStore.addDocument st filePath content ty ov id now).1 id).2
        = OperationResult.ok doc ∧
      doc.metadata.size = content.utf8ByteSize ∧
      doc.metadata.wordCount = some (jsWordCount content) ∧
      doc.metadata.createdAt = doc.metadata.updatedAt := by
  refine ⟨_, rfl, ?_, ?_, ?_, ?_⟩
  · unfold DocumentStore.getDocument DocumentStore.addDocument DocumentStore.saveMetadata
    simp only [lookupAssoc_setAssoc_self, mem_writeSlot, if_pos]
  · cases ov with
    | none => rfl
    | some p =>
      obtain ⟨h1, _, _, _⟩ := hov p rfl
      simp [DocumentStore.buildDocument, mergeMetadata, h1]
  · cases ov with
    | none => rfl
    | some p =>
      obtain ⟨_, h2, _, _⟩ := hov p rfl
      simp [DocumentStore.buildDocument, mergeMetadata, h2]
  · cases ov with
    | none => rfl
    | some p =>
      obtain ⟨_, _, h3, h4⟩ := hov p rfl
      simp [DocumentStore.buildDocument, mergeMetadata, h3, h4]

/-- C2 (witness): the amended statement at a concrete add. -/
theorem addDocument_computed_metadata_witness :
    ∃ doc,
      (DocumentStore.addDocument emptyStore "/w.txt" "hello world" .txt none "w1" "T0").2.data
        = some doc ∧
      (DocumentStore.getDocument
          (DocumentStore.addDocument emptyStore "/w.txt" "hello world" .txt none "w1" "T0").1
          "w1").2 = OperationResult.ok doc ∧
      doc.metadata.size = ("hello world" : String).utf8ByteSize ∧
      doc.metadata.wordCount = some (jsWordCount "hello world") ∧
      doc.metadata.createdAt = doc.metadata.updatedAt :=
  addDocument_computed_metadata emptyStore "/w.txt" "hello world" .txt none "w1" "T0"
    (fun p hp => by cases hp)

/-- C3 (counterexample): the claim that the title defaults to the filename
regardless of tags fails — adding `docs/report.txt` with tag `"alpha"` and
no explicit title stores title `"alpha"`, not `"report.txt"`. -/
theorem addDocument_title_tag_cex :
    ((DocumentStore.addDocument emptyStore "docs/report.txt" "x" .txt (some c3Ov)
        "id1" "T0").2.data.map Document.title = some "alpha") ∧
    basename "docs/report.txt" = "report.txt" ∧ ("alpha" : String) ≠ "report.txt" := by
  refine ⟨rfl, by decide, by decide⟩

/-- C3 (amended): `addDocument`'s title defaults to the first tag of the
metadata overrides when it exists and is non-empty; only otherwise does it
default to the filename (the basename of the given path). -/
theorem addDocument_title_default
    (st : StoreState) (filePath content : String) (ty : DocType)
    (ov : Option PartialMetadata) (id now : String) :
    ∃ doc,
      (DocumentStore.addDocument st filePath content ty ov id now).2.data = some doc ∧
      ((ov.bind PartialMetadata.tags).bind List.head? = none →
        doc.title = basename filePath) ∧
      (∀ t, (ov.bind PartialMetadata.tags).bind List.head? = some t →
        (t = "" → doc.title = basename filePath) ∧ (t ≠ "" → doc.title = t)) := by
  refine ⟨_, rfl, ?_, ?_⟩
  · intro h
    simp only [DocumentStore.buildDocument, h]
  · intro t ht
    constructor
    · intro he
      simp only [DocumentStore.buildDocument, ht, he, if_pos]
    · intro hne
      simp only [DocumentStore.buildDocument, ht, if_neg hne]

/-- C3 (witness): the amended statement at a concrete add with a tag. -/
theorem addDocument_title_default_witness :
    ∃ doc,
      (DocumentStore.addDocument emptyStore "docs/report.txt" "x" .txt (some c3Ov)
        "id1" "T0").2.data = some doc ∧
      (((some c3Ov).bind PartialMetadata.tags).bind List.head? = none →
        doc.title = basename "docs/report.txt") ∧
      (∀ t, ((some c3Ov).bind PartialMetadata.tags).bind List.head? = some t →
        (t = "" → doc.title = basename "docs/report.txt") ∧ (t ≠ "" → doc.title = t)) :=
  addDocument_title_default emptyStore "docs/report.txt" "x" .txt (some c3Ov) "id1" "T0"

/-! ### Claim theorems: Search Index -/

/-- C4 (counterexample): the claim that index-entry content is capped at
10,000 characters fails — a 10,001-character document is stored as a
10,003-character entry, because `truncateContent` appends a three-character
ellipsis after slicing to the cap. -/
theorem indexEntry_over_cap_cex :
    (lookupAssoc (SearchIndex.addDocument emptyIndexState c4Doc).documents
        c4Doc.id).map (fun e => e.content.length) = some 10003 ∧
    ¬ ((10003 : Nat) ≤ 10000) := by
  constructor
  · rw [addDocument_entry]
    have hlen : c4Doc.content.length = 10001 := by
      show (String.mk (List.replicate 10001 'a')).length = 10001
      rw [length_mk, List.length_replicate]
    rw [Option.map_some']
    simp only [SearchIndex.mkEntry]
    rw [truncateContent_length, hlen]
    rfl
  · decide

/-- C4 (amended): for every document passed to `SearchIndex.addDocument`
(and `updateDocument`, which is the same operation), the stored entry's
content has length at most 10,003: content at or below the 10,000-character
cap is stored verbatim, and content exceeding the cap is stored as exactly
the first 10,000 characters plus a three-character ellipsis (length
10,003). -/
theorem indexEntry_truncation (st : SearchIndexState) (doc : Document) :
    ∃ e, lookupAssoc (SearchIndex.addDocument st doc).documents doc.id = some e ∧
      e.content.length ≤ 10003 ∧
      (10000 < doc.content.length → e.content.length = 10003) ∧
      (doc.content.length ≤ 10000 → e.content = doc.content) ∧
      SearchIndex.updateDocument st doc = SearchIndex.addDocument st doc := by
  refine ⟨_, addDocument_entry st doc, ?_, ?_, ?_, rfl⟩
  · show (SearchIndex.truncateContent doc.content 10000).length ≤ 10003
    rw [truncateContent_length]
    split <;> omega
  · intro h
    show (SearchIndex.truncateContent doc.content 10000).length = 10003
    rw [truncateContent_length, if_neg (Nat.not_le.mpr h)]
  · intro h
    show SearchIndex.truncateContent doc.content 10000 = doc.content
    unfold SearchIndex.truncateContent
    rw [if_pos h]

/-- C4 (witness): the amended statement at the over-cap fixture. -/
theorem indexEntry_truncation_witness :
    10000 < c4Doc.content.length ∧
    ∃ e, lookupAssoc (SearchIndex.addDocument emptyIndexState c4Doc).documents
        c4Doc.id = some e ∧ e.content.length = 10003 := by
  have hlen : c4Doc.content.length = 10001 := by
    show (String.mk (List.replicate 10001 'a')).length = 10001
    rw [length_mk, List.length_replicate]
  have hlt : 10000 < c4Doc.content.length := by
    rw [hlen]
    decide
  obtain ⟨e, h1, _, h3, _, _⟩ := indexEntry_truncation emptyIndexState c4Doc
  exact ⟨hlt, e, h1, h3 hlt⟩

/-- C5: rebuilding from an empty document list produces the "no index"
state (the index object is absent, not an empty-but-present index), and
every subsequent `search` call returns a successful empty result whose
value does not depend on the text-indexing primitive (it holds for every
oracle, so the primitive is never consulted). -/
theorem rebuildFromDocuments_empty_no_index (st : SearchIndexState) :
    ((SearchIndex.rebuildFromDocuments st []).1.index = none) ∧
    ∀ oracle query limit,
      SearchIndex.search oracle (SearchIndex.rebuildFromDocuments st []).1 query limit
        = { success := true, data := some [] } := by
  have h : (SearchIndex.rebuildFromDocuments st []).1
      = { st with documents := [], index := none } := by
    unfold SearchIndex.rebuildFromDocuments SearchIndex.rebuildIndex SearchIndex.saveIndex
    simp
  rw [h]
  exact ⟨rfl, fun oracle query limit => rfl⟩

/-- C7: `search` returns a successful empty result — never a failure —
for every blank (whitespace-only or empty) query, and for every query
when no index object exists. -/
theorem search_blank_or_no_index (oracle : List LunrDoc → String → List RawHit)
    (st : SearchIndexState) (query : String) (limit : Nat)
    (h : (∀ c ∈ query.data, isWS c = true) ∨ st.index = none) :
    SearchIndex.search oracle st query limit = { success := true, data := some [] } := by
  unfold SearchIndex.search
  rcases hidx : st.index with _ | idx
  · rfl
  · rcases h with hblank | hnone
    · have htrim : jsTrim query = "" := by
        unfold jsTrim trimList trimLeftList trimRightList
        rw [List.dropWhile_eq_nil_iff.mpr hblank]
        rfl
      rw [htrim]
      rfl
    · rw [hidx] at hnone
      cases hnone

/-- C7 (witness): a whitespace-only query against a present index. -/
theorem search_blank_or_no_index_witness :
    SearchIndex.search trivialOracle c7State "  " 10
      = { success := true, data := some [] } :=
  search_blank_or_no_index trivialOracle c7State "  " 10 (Or.inl (by decide))

/-- C9: removing the last remaining indexed document succeeds, sets the
in-memory index to the "no index" state and empties the entry map, but
leaves the persisted index artifact byte-for-byte unchanged, because
`saveIndex` returns without writing when the index object is null. -/
theorem removeDocument_last_disk_unchanged (st : SearchIndexState) (id : String)
    (e : IndexEntry) (h : st.documents = [(id, e)]) :
    SearchIndex.removeDocument st id
      = ({ st with documents := [], index := none }, OperationResult.ok true) := by
  unfold SearchIndex.removeDocument
  rw [h]
  simp only [lookupAssoc, if_pos rfl, Option.isNone_some, Bool.false_eq_true, if_false]
  unfold SearchIndex.rebuildIndex SearchIndex.saveIndex eraseAssoc
  simp

/-- C9 (witness): removing the single entry of a concrete state whose
persisted artifact still lists that entry. -/
theorem removeDocument_last_disk_unchanged_witness :
    SearchIndex.removeDocument c9State "d1"
      = ({ c9State with documents := [], index := none }, OperationResult.ok true) :=
  removeDocument_last_disk_unchanged c9State "d1" c9Entry rfl

/-- C10: whenever every stored entry's `id` field matches its key, every
result returned by `search` has an id present in the in-memory entry map
(raw hits without an entry are silently dropped after the `limit` cut);
and there are runs — witnessed concretely — in which the underlying index
matches at least `limit` documents yet fewer than `limit` results are
returned. -/
theorem search_results_in_entry_map :
    (∀ (oracle : List LunrDoc → String → List RawHit) (st : SearchIndexState)
        (query : String) (limit : Nat),
      (∀ kv ∈ st.documents, (kv.2 : IndexEntry).id = kv.1) →
      ∀ r ∈ (SearchIndex.search oracle st query limit).data.getD [],
        (lookupAssoc st.documents r.id).isSome) ∧
    (∃ (oracle : List LunrDoc → String → List RawHit) (st : SearchIndexState)
        (query : String) (limit : Nat) (idx : List LunrDoc),
      st.index = some idx ∧
      limit ≤ (oracle idx (SearchIndex.cleanQuery query)).length ∧
      (SearchIndex.search oracle st query limit).success = true ∧
      ((SearchIndex.search oracle st query limit).data.getD []).length < limit) := by
  constructor
  · intro oracle st query limit hwf r hr
    unfold SearchIndex.search at hr
    rcases hidx : st.index with _ | idx <;> rw [hidx] at hr <;> dsimp only at hr
    · simp at hr
    · by_cases htrim : jsTrim query = ""
      · rw [if_pos htrim] at hr
        simp at hr
      · rw [if_neg htrim] at hr
        by_cases hcq : SearchIndex.cleanQuery query = ""
        · rw [if_pos hcq] at hr
          simp at hr
        · rw [if_neg hcq] at hr
          simp only [Option.getD_some] at hr
          obtain ⟨hit, _, hfm⟩ := List.mem_filterMap.mp hr
          rcases hl : lookupAssoc st.documents hit.ref with _ | doc <;> rw [hl] at hfm
          · cases hfm
          · injection hfm with hfm
            have hid : r.id = doc.id := by rw [← hfm]
            have hkey : doc.id = hit.ref :=
              hwf (hit.ref, doc) (mem_of_lookupAssoc hl)
            rw [hid, hkey, hl]
            rfl
  · exact ⟨c10Oracle, c10State, "hello", 2, [SearchIndex.toLunrDoc c10Entry],
      rfl, by decide, by decide, by decide⟩

/-- C10 (witness): the universal membership clause at the concrete run. -/
theorem search_results_in_entry_map_witness :
    ∀ r ∈ (SearchIndex.search c10Oracle c10State "hello" 2).data.getD [],
      (lookupAssoc c10State.documents r.id).isSome :=
  search_results_in_entry_map.1 c10Oracle c10State "hello" 2 (by decide)

/-! ### Normalization lemmas for `cleanQuery` (C8) -/

theorem length_dropWhile_le {α : Type} (p : α → Bool) (l : List α) :
    (l.dropWhile p).length ≤ l.length := by
  induction l with
  | nil => simp
  | cons a l ih =>
    rw [List.dropWhile_cons]
    split
    · exact Nat.le_succ_of_le ih
    · exact Nat.le_refl _

theorem dropWhile_head_false {α : Type} {p : α → Bool} :
    ∀ {l : List α} {d : α} {r : List α}, l.dropWhile p = d :: r → p d = false := by
  intro l
  induction l with
  | nil => intro d r h; cases h
  | cons a l ih =>
    intro d r h
    rw [List.dropWhile_cons] at h
    split at h
    · exact ih h
    · rename_i hp
      injection h with h1 _
      cases h1
      exact Bool.eq_false_iff.mpr hp

theorem dropWhile_false_of_mem_false {α : Type} {p : α → Bool} {l : List α}
    (h : ∀ a ∈ l, p a = false) : l.dropWhile p = l := by
  cases l with
  | nil => rfl
  | cons a l =>
    rw [List.dropWhile_cons, if_neg]
    simp [h a (List.mem_cons_self a l)]

theorem wordsOf_cons_ws {c : Char} {t : List Char} (h : isWS c = true) :
    wordsOf (c :: t) = wordsOf t := by
  simp [wordsOf, h]

theorem wordsOf_cons_word {c : Char} (t : List Char) (h : isWS c = false) :
    wordsOf (c :: t)
      = (c :: t.takeWhile (fun a => !isWS a)) :: wordsOf (t.dropWhile (fun a => !isWS a)) := by
  induction t generalizing c with
  | nil => simp [wordsOf, h]
  | cons d u ih =>
    cases hd : isWS d
    · rw [show wordsOf (c :: d :: u)
          = (match wordsOf (d :: u) with
             | w :: ws => (c :: w) :: ws
             | [] => [[c]]) by simp [wordsOf, h, hd]]
      rw [ih hd]
      simp [List.takeWhile_cons, List.dropWhile_cons, hd]
    · have : wordsOf (c :: d :: u) = [c] :: wordsOf (d :: u) := by
        simp [wordsOf, h, hd]
      rw [this]
      simp [List.takeWhile_cons, List.dropWhile_cons, hd]

theorem wordsOf_allWS {l : List Char} (h : ∀ a ∈ l, isWS a = true) :
    wordsOf l = [] := by
  induction l with
  | nil => rfl
  | cons a l ih =>
    rw [wordsOf_cons_ws (h a (List.mem_cons_self a l))]
    exact ih (fun x hx => h x (List.mem_cons_of_mem a hx))

theorem wordsOf_dropWhile_ws (l : List Char) :
    wordsOf (l.dropWhile isWS) = wordsOf l := by
  induction l with
  | nil => rfl
  | cons a l ih =>
    cases ha : isWS a
    · rw [List.dropWhile_cons, if_neg (by simp [ha])]
    · rw [List.dropWhile_cons, if_pos (by simp [ha]), ih, wordsOf_cons_ws ha]

theorem wordsOf_sound :
    ∀ n (l : List Char), l.length ≤ n →
      ∀ w ∈ wordsOf l, w ≠ [] ∧ ∀ a ∈ w, isWS a = false := by
  intro n
  induction n with
  | zero =>
    intro l hl w hw
    rw [List.length_eq_zero.mp (Nat.le_zero.mp hl)] at hw
    cases hw
  | succ n ih =>
    intro l hl w hw
    cases l with
    | nil => cases hw
    | cons c t =>
      cases hc : isWS c
      · rw [wordsOf_cons_word t hc] at hw
        rcases List.mem_cons.mp hw with rfl | hw'
        · refine ⟨by simp, ?_⟩
          intro a ha
          rcases List.mem_cons.mp ha with rfl | ha'
          · exact hc
          · have := List.mem_takeWhile_imp ha'
            simpa using this
        · refine ih _ ?_ w hw'
          calc (t.dropWhile (fun a => !isWS a)).length
              ≤ t.length := length_dropWhile_le _ t
            _ ≤ n := Nat.le_of_succ_le_succ hl
      · rw [wordsOf_cons_ws hc] at hw
        exact ih t (Nat.le_of_succ_le_succ hl) w hw

theorem wordsOf_words_ok {l : List Char} :
    ∀ w ∈ wordsOf l, w ≠ [] ∧ ∀ a ∈ w, isWS a = false :=
  wordsOf_sound l.length l (Nat.le_refl _)

theorem collapseWS_cons_word {c : Char} {t : List Char} (h : isWS c = false) :
    collapseWS (c :: t) = c :: collapseWS t := by
  simp [collapseWS, h]

theorem collapseWS_cons_ws :
    ∀ (t : List Char) {c : Char}, isWS c = true →
      collapseWS (c :: t) = ' ' :: collapseWS (t.dropWhile isWS) := by
  intro t
  induction t with
  | nil => intro c h; simp [collapseWS, h]
  | cons d u ih =>
    intro c h
    cases hd : isWS d
    · have hne : d ≠ ' ' := by
        intro he
        rw [he] at hd
        exact absurd hd (by decide)
      rw [List.dropWhile_cons, if_neg (by simp [hd])]
      show (if isWS c then
          let r := collapseWS (d :: u)
          if r.head? = some ' ' then r else ' ' :: r
        else c :: collapseWS (d :: u)) = ' ' :: collapseWS (d :: u)
      rw [if_pos h, collapseWS_cons_word hd]
      simp [hne]
    · rw [List.dropWhile_cons, if_pos (by simp [hd])]
      show (if isWS c then
          let r := collapseWS (d :: u)
          if r.head? = some ' ' then r else ' ' :: r
        else c :: collapseWS (d :: u)) = ' ' :: collapseWS (u.dropWhile isWS)
      rw [if_pos h, ih hd]
      simp

theorem collapseWS_word_prefix {w : List Char} (r : List Char)
    (h : ∀ a ∈ w, isWS a = false) :
    collapseWS (w ++ r) = w ++ collapseWS r := by
  induction w with
  | nil => rfl
  | cons a w ih =>
    rw [List.cons_append, collapseWS_cons_word (h a (List.mem_cons_self a w)),
      ih (fun x hx => h x (List.mem_cons_of_mem a hx))]
    rfl

theorem trimRightList_no_ws {l : List Char} (h : ∀ a ∈ l, isWS a = false) :
    trimRightList l = l := by
  unfold trimRightList
  rw [dropWhile_false_of_mem_false (fun a ha => h a (List.mem_reverse.mp ha))]
  exact List.reverse_reverse l

theorem trimRightList_append_ws {l : List Char} {a : Char} (h : isWS a = true) :
    trimRightList (l ++ [a]) = trimRightList l := by
  unfold trimRightList
  rw [List.reverse_append]
  simp [List.dropWhile_cons, h]

theorem trimRightList_append {x y : List Char} (h : trimRightList y ≠ []) :
    trimRightList (x ++ y) = x ++ trimRightList y := by
  unfold trimRightList at h ⊢
  have hd : y.reverse.dropWhile isWS ≠ [] := by
    intro he
    rw [he] at h
    exact h rfl
  rw [List.reverse_append, List.dropWhile_append, if_neg (by simpa using hd),
    List.reverse_append, List.reverse_reverse]

theorem joinW_ne_nil {x : List Char} {xs : List (List Char)} (h : x ≠ []) :
    joinW (x :: xs) ≠ [] := by
  cases xs with
  | nil => exact h
  | cons y ys =>
    show x ++ ' ' :: joinW (y :: ys) ≠ []
    simp

theorem joinW_cons {x : List Char} {xs : List (List Char)} (h : xs ≠ []) :
    joinW (x :: xs) = x ++ ' ' :: joinW xs := by
  cases xs with
  | nil => exact absurd rfl h
  | cons y ys => rfl

theorem trimList_cons_word {c : Char} (X : List Char) (h : isWS c = false) :
    trimList (c :: X) = trimRightList (c :: X) := by
  unfold trimList trimLeftList
  rw [List.dropWhile_cons, if_neg (by simp [h])]

theorem trimList_cons_space (X : List Char) :
    trimList (' ' :: X) = trimList X := by
  unfold trimList trimLeftList
  rw [List.dropWhile_cons, if_pos (by decide)]

/-- Main normalization lemma: collapsing whitespace and trimming yields
exactly the space-join of the whitespace-delimited tokens. -/
theorem trim_collapse_eq_joinW :
    ∀ n (l : List Char), l.length ≤ n →
      trimList (collapseWS l) = joinW (wordsOf l) := by
  intro n
  induction n with
  | zero =>
    intro l hl
    rw [List.length_eq_zero.mp (Nat.le_zero.mp hl)]
    rfl
  | succ n ih =>
    intro l hl
    cases l with
    | nil => rfl
    | cons c t =>
      cases hc : isWS c
      · -- word case
        rw [collapseWS_cons_word hc, wordsOf_cons_word t hc]
        have hw : ∀ a ∈ t.takeWhile (fun a => !isWS a), isWS a = false := by
          intro a ha
          simpa using List.mem_takeWhile_imp ha
        have ht : t = t.takeWhile (fun a => !isWS a) ++ t.dropWhile (fun a => !isWS a) :=
          (List.takeWhile_append_dropWhile _ _).symm
        rw [show collapseWS t
            = t.takeWhile (fun a => !isWS a) ++ collapseWS (t.dropWhile (fun a => !isWS a)) by
          conv_lhs => rw [ht]
          exact collapseWS_word_prefix _ hw]
        set w := t.takeWhile (fun a => !isWS a) with hwdef
        set r := t.dropWhile (fun a => !isWS a) with hrdef
        have hcw : ∀ a ∈ c :: w, isWS a = false := by
          intro a ha
          rcases List.mem_cons.mp ha with rfl | ha'
          · exact hc
          · exact hw a ha'
        have hrlen : r.length ≤ t.length := hrdef ▸ length_dropWhile_le _ t
        rw [trimList_cons_word _ hc]
        cases hr : r with
        | nil =>
          show trimRightList ((c :: w) ++ collapseWS []) = joinW ((c :: w) :: wordsOf [])
          simp only [collapseWS, List.append_nil, wordsOf]
          exact trimRightList_no_ws hcw
        | cons d r' =>
          have hd : isWS d = true := by
            have := dropWhile_head_false (p := fun a => !isWS a) (hrdef ▸ hr)
            simpa using this
          rw [collapseWS_cons_ws r' hd]
          set m := r'.dropWhile isWS with hmdef
          have hm : trimList (collapseWS m) = joinW (wordsOf m) := by
            refine ih m ?_
            have h1 : m.length ≤ r'.length := length_dropWhile_le _ r'
            have h2 : (d :: r').length ≤ t.length := hr ▸ hrlen
            have h3 : r'.length < t.length := Nat.lt_of_lt_of_le (by simp) h2
            have h4 : t.length ≤ n := Nat.le_of_succ_le_succ hl
            omega
          have hwords : wordsOf (d :: r') = wordsOf m := by
            rw [wordsOf_cons_ws hd, hmdef, wordsOf_dropWhile_ws]
          rcases hwm : wordsOf m with _ | ⟨x, xs⟩
          · -- no further words: m must be empty
            have hmnil : m = [] := by
              cases hme : m with
              | nil => rfl
              | cons e m' =>
                have he : isWS e = false := dropWhile_head_false (hmdef ▸ hme)
                rw [hme, wordsOf_cons_word m' he] at hwm
                cases hwm
            rw [hmnil]
            show trimRightList ((c :: w) ++ [' ']) = joinW ((c :: w) :: wordsOf (d :: r'))
            rw [trimRightList_append_ws (by decide), trimRightList_no_ws hcw,
              hwords, hmnil]
            rfl
          · -- at least one further word
            have hx : x ≠ [] := (wordsOf_words_ok x (hwm ▸ List.mem_cons_self x xs)).1
            have hjoin : joinW (wordsOf m) ≠ [] := by
              rw [hwm]
              exact joinW_ne_nil hx
            have hmne : m ≠ [] := by
              intro he
              rw [he] at hwm
              cases hwm
            have hmtl : trimList (collapseWS m) = trimRightList (collapseWS m) := by
              cases hme : m with
              | nil => exact absurd hme hmne
              | cons e m' =>
                have he : isWS e = false := dropWhile_head_false (hmdef ▸ hme)
                rw [collapseWS_cons_word he]
                exact trimList_cons_word _ he
            have hmr : trimRightList (collapseWS m) = joinW (wordsOf m) := by
              rw [← hmtl, hm]
            rw [show (c :: (w ++ ' ' :: collapseWS m))
                = (c :: w ++ [' ']) ++ collapseWS m by simp]
            rw [trimRightList_append (by rw [hmr]; exact hjoin), hmr, hwords,
              joinW_cons (by rw [hwm]; exact List.cons_ne_nil x xs)]
            simp
      · -- whitespace case
        rw [collapseWS_cons_ws t hc, wordsOf_cons_ws hc, ← wordsOf_dropWhile_ws t]
        have hsp : trimList (' ' :: collapseWS (t.dropWhile isWS))
            = trimList (collapseWS (t.dropWhile isWS)) := trimList_cons_space _
        rw [hsp]
        exact ih _ (Nat.le_trans (length_dropWhile_le _ t) (Nat.le_of_succ_le_succ hl))

/-- The statement of `trim_collapse_eq_joinW` without the fuel. -/
theorem trimList_collapseWS (l : List Char) :
    trimList (collapseWS l) = joinW (wordsOf l) :=
  trim_collapse_eq_joinW l.length l (Nat.le_refl _)

theorem wordsOf_append_ws :
    ∀ n (x s : List Char), x.length ≤ n → (∀ a ∈ s, isWS a = true) →
      wordsOf (x ++ s) = wordsOf x := by
  intro n
  induction n with
  | zero =>
    intro x s hx hs
    rw [List.length_eq_zero.mp (Nat.le_zero.mp hx)]
    show wordsOf s = wordsOf []
    rw [wordsOf_allWS hs]
    rfl
  | succ n ih =>
    intro x s hx hs
    cases x with
    | nil =>
      show wordsOf s = wordsOf []
      rw [wordsOf_allWS hs]
      rfl
    | cons c t =>
      have htn : t.length ≤ n := Nat.le_of_succ_le_succ hx
      cases hc : isWS c
      · rw [List.cons_append, wordsOf_cons_word _ hc, wordsOf_cons_word t hc]
        have hw : ∀ a ∈ t.takeWhile (fun a => !isWS a), (!isWS a) = true := by
          intro a ha
          simpa using List.mem_takeWhile_imp ha
        have ht : t.takeWhile (fun a => !isWS a) ++ t.dropWhile (fun a => !isWS a) = t :=
          List.takeWhile_append_dropWhile _ _
        cases hr : t.dropWhile (fun a => !isWS a) with
        | nil =>
          have htw : t.takeWhile (fun a => !isWS a) = t := by
            have h0 := ht
            rw [hr, List.append_nil] at h0
            exact h0
          have htall : ∀ a ∈ t, (!isWS a) = true := by
            intro a ha
            refine hw a ?_
            rw [htw]
            exact ha
          have hstake : s.takeWhile (fun a => !isWS a) = [] := by
            cases hs0 : s with
            | nil => rfl
            | cons b s' =>
              rw [List.takeWhile_cons_of_neg]
              simp [hs b (hs0 ▸ List.mem_cons_self b s')]
          have hsdrop : s.dropWhile (fun a => !isWS a) = s := by
            refine dropWhile_false_of_mem_false ?_
            intro a ha
            simp [hs a ha]
          rw [List.takeWhile_append_of_pos htall, List.dropWhile_append_of_pos htall,
            hstake, hsdrop, wordsOf_allWS hs, htw]
          simp [wordsOf]
        | cons d r' =>
          have hd : isWS d = true := by
            have := dropWhile_head_false (p := fun a => !isWS a) hr
            simpa using this
          have hteq : t = t.takeWhile (fun a => !isWS a) ++ d :: r' := by
            rw [← hr, ht]
          have htake2 : (t ++ s).takeWhile (fun a => !isWS a)
              = t.takeWhile (fun a => !isWS a) := by
            conv_lhs => rw [hteq, List.append_assoc]
            rw [List.takeWhile_append_of_pos hw, List.cons_append,
              List.takeWhile_cons_of_neg (by simp [hd]), List.append_nil]
          have hdrop2 : (t ++ s).dropWhile (fun a => !isWS a) = d :: (r' ++ s) := by
            conv_lhs => rw [hteq, List.append_assoc]
            rw [List.dropWhile_append_of_pos hw, List.cons_append,
              List.dropWhile_cons_of_neg (by simp [hd])]
          have hr'n : r'.length ≤ n := by
            have h1 : (d :: r').length ≤ t.length := hr ▸ length_dropWhile_le _ t
            have h2 : r'.length < t.length := Nat.lt_of_lt_of_le (by simp) h1
            omega
          rw [htake2, hdrop2, wordsOf_cons_ws hd, wordsOf_cons_ws hd,
            ih r' s hr'n hs]
      · rw [List.cons_append, wordsOf_cons_ws hc, wordsOf_cons_ws hc]
        exact ih t s htn hs

/-- Appending pure whitespace does not change the token list. -/
theorem wordsOf_append_allWS (x s : List Char) (hs : ∀ a ∈ s, isWS a = true) :
    wordsOf (x ++ s) = wordsOf x :=
  wordsOf_append_ws x.length x s (Nat.le_refl _) hs

theorem stripChar_ws {a : Char} (h : isWS a = true) : stripChar a = a := by
  simp [stripChar, keepChar, h]

theorem map_stripChar_allWS {s : List Char} (h : ∀ a ∈ s, isWS a = true) :
    s.map stripChar = s := by
  induction s with
  | nil => rfl
  | cons a s ih =>
    rw [List.map_cons, stripChar_ws (h a (List.mem_cons_self a s)),
      ih (fun x hx => h x (List.mem_cons_of_mem a hx))]

theorem wordsOf_map_strip_trimLeft (l : List Char) :
    wordsOf ((trimLeftList l).map stripChar) = wordsOf (l.map stripChar) := by
  induction l with
  | nil => rfl
  | cons a l ih =>
    cases ha : isWS a
    · unfold trimLeftList
      rw [List.dropWhile_cons, if_neg (by simp [ha])]
    · unfold trimLeftList at ih ⊢
      rw [List.dropWhile_cons, if_pos (by simp [ha]), ih, List.map_cons,
        stripChar_ws ha, wordsOf_cons_ws ha]

theorem wordsOf_map_strip_trimRight (m : List Char) :
    wordsOf ((trimRightList m).map stripChar) = wordsOf (m.map stripChar) := by
  have hrec : m = trimRightList m ++ (m.reverse.takeWhile isWS).reverse := by
    conv_lhs => rw [← List.reverse_reverse m,
      ← List.takeWhile_append_dropWhile isWS m.reverse]
    rw [List.reverse_append]
    rfl
  have hs : ∀ a ∈ (m.reverse.takeWhile isWS).reverse, isWS a = true := by
    intro a ha
    exact List.mem_takeWhile_imp (List.mem_reverse.mp ha)
  conv_rhs => rw [hrec]
  rw [List.map_append, map_stripChar_allWS hs, wordsOf_append_allWS _ _ hs]

theorem wordsOf_map_strip_trim (l : List Char) :
    wordsOf ((trimList l).map stripChar) = wordsOf (l.map stripChar) := by
  unfold trimList
  rw [wordsOf_map_strip_trimRight (trimLeftList l), wordsOf_map_strip_trimLeft l]

theorem splitOnChar_cons (sep c : Char) (t : List Char) :
    splitOnChar sep (c :: t)
      = if c = sep then [] :: splitOnChar sep t
        else
          match splitOnChar sep t with
          | w :: ws => (c :: w) :: ws
          | [] => [[c]] := by
  rw [splitOnChar]

theorem splitSpace_no_sep {w : List Char} (h : ∀ a ∈ w, a ≠ ' ') :
    splitSpace w = [w] := by
  induction w with
  | nil => rfl
  | cons a w ih =>
    show splitOnChar ' ' (a :: w) = [a :: w]
    have ih' : splitOnChar ' ' w = [w] :=
      ih (fun x hx => h x (List.mem_cons_of_mem a hx))
    rw [splitOnChar_cons, if_neg (h a (List.mem_cons_self a w)), ih']

theorem splitSpace_word_space {w : List Char} (x : List Char) (h : ∀ a ∈ w, a ≠ ' ') :
    splitSpace (w ++ ' ' :: x) = w :: splitSpace x := by
  induction w with
  | nil =>
    show splitOnChar ' ' (' ' :: x) = [] :: splitOnChar ' ' x
    rw [splitOnChar_cons, if_pos rfl]
  | cons a w ih =>
    show splitOnChar ' ' (a :: (w ++ ' ' :: x)) = (a :: w) :: splitOnChar ' ' x
    have ih' : splitOnChar ' ' (w ++ ' ' :: x) = w :: splitOnChar ' ' x :=
      ih (fun y hy => h y (List.mem_cons_of_mem a hy))
    rw [splitOnChar_cons, if_neg (h a (List.mem_cons_self a w)), ih']

theorem filter_splitSpace_joinW :
    ∀ (ws : List (List Char)), (∀ w ∈ ws, w ≠ [] ∧ ∀ a ∈ w, a ≠ ' ') →
      (splitSpace (joinW ws)).filter (fun w => 0 < w.length) = ws := by
  intro ws
  induction ws with
  | nil => intro _; rfl
  | cons w ws ih =>
    intro h
    obtain ⟨hw, hwsp⟩ := h w (List.mem_cons_self w ws)
    cases ws with
    | nil =>
      show (splitSpace (joinW [w])).filter (fun w => 0 < w.length) = [w]
      rw [show joinW [w] = w from rfl, splitSpace_no_sep hwsp, List.filter_cons]
      simp [List.length_pos.mpr hw]
    | cons w' ws' =>
      rw [joinW_cons (List.cons_ne_nil w' ws'), splitSpace_word_space _ hwsp,
        List.filter_cons]
      have hrest := ih (fun x hx => h x (List.mem_cons_of_mem w hx))
      simp only [hrest]
      simp [List.length_pos.mpr hw]

theorem filter_words_strings (toks : List (List Char))
    (h : ∀ w ∈ toks, w ≠ [] ∧ ∀ a ∈ w, a ≠ ' ') :
    ((splitSpace (String.mk (joinW toks)).data).map String.mk).filter
        (fun w => 0 < w.length)
      = toks.map String.mk := by
  show ((splitSpace (joinW toks)).map String.mk).filter (fun w => 0 < w.length)
    = toks.map String.mk
  rw [List.filter_map]
  show List.map String.mk ((splitSpace (joinW toks)).filter (fun w => 0 < w.length))
    = List.map String.mk toks
  rw [filter_splitSpace_joinW toks h]

/-- C8: the source's `cleanQuery` coincides with the spec's description of
query normalization — strip characters outside the
word/hyphen/underscore/space classes, collapse whitespace, and either
expand a single surviving word longer than 2 characters into an OR of the
verbatim term and its prefix-wildcard form, or pass the cleaned,
space-joined terms through unmodified. -/
theorem cleanQuery_matches_spec (query : String) :
    SearchIndex.cleanQuery query = specCleanQuery query := by
  have hprops : ∀ w ∈ wordsOf (query.data.map stripChar),
      w ≠ [] ∧ ∀ a ∈ w, a ≠ ' ' := by
    intro w hw
    obtain ⟨h1, h2⟩ := wordsOf_words_ok w hw
    refine ⟨h1, fun a ha hsp => ?_⟩
    have hws := h2 a ha
    rw [hsp] at hws
    exact absurd hws (by decide)
  have hcleaned :
      jsTrim (String.mk (collapseWS
        (String.mk ((jsTrim query).data.map stripChar)).data))
      = String.mk (joinW (wordsOf (query.data.map stripChar))) := by
    show String.mk (trimList (collapseWS ((trimList query.data).map stripChar)))
      = String.mk (joinW (wordsOf (query.data.map stripChar)))
    rw [trimList_collapseWS, wordsOf_map_strip_trim]
  unfold SearchIndex.cleanQuery specCleanQuery
  rw [hcleaned]
  rcases htoks : wordsOf (query.data.map stripChar) with _ | ⟨w, ws⟩
  · rfl
  · have hprops' : ∀ x ∈ w :: ws, x ≠ [] ∧ ∀ a ∈ x, a ≠ ' ' := by
      rw [← htoks]
      exact hprops
    have hw0 : w ≠ [] := (hprops' w (List.mem_cons_self w ws)).1
    have hne : ¬ (String.mk (joinW (w :: ws)) = "") := by
      intro he
      have hd := congrArg String.data he
      exact joinW_ne_nil hw0 hd
    rw [if_neg hne, filter_words_strings (w :: ws) hprops']
    cases ws with
    | nil => rfl
    | cons w' ws' => rfl

/-! ### Lemmas for the Reconciler's `added` handling (C6) -/

theorem countPath_pos {m : List (String × Document)} {p : String}
    {kv : String × Document} (hmem : kv ∈ m) (hp : kv.2.path = p) :
    0 < countPath m p := by
  unfold countPath
  exact List.countP_pos_iff.mpr ⟨kv, hmem, by simp [hp]⟩

theorem countPath_pos_of_mem_snd {m : List (String × Document)} {p : String}
    {d : Document} (hd : d ∈ m.map Prod.snd) (hp : d.path = p) :
    0 < countPath m p := by
  obtain ⟨kv, hkv, hkvd⟩ := List.mem_map.mp hd
  refine countPath_pos hkv ?_
  rw [show kv.2 = d from hkvd]
  exact hp

theorem countPath_zero_of_find_none {m : List (String × Document)} {p : String}
    (h : m.find? (fun kv => kv.2.path = p) = none) : countPath m p = 0 := by
  unfold countPath
  rw [List.countP_eq_zero]
  intro kv hkv
  exact List.find?_eq_none.mp h kv hkv

theorem find?_none_of_countPath_zero {m : List (String × Document)} {p : String}
    (h : countPath m p = 0) : m.find? (fun kv => kv.2.path = p) = none := by
  rw [List.find?_eq_none]
  intro kv hkv
  unfold countPath at h
  exact List.countP_eq_zero.mp h kv hkv

theorem eq_singleton_of_mem_of_length_le_one {α : Type} {l : List α} {x : α}
    (hx : x ∈ l) (hl : l.length ≤ 1) : l = [x] := by
  cases l with
  | nil => cases hx
  | cons a t =>
    cases t with
    | nil =>
      rw [List.mem_singleton.mp hx]
    | cons b u => simp at hl

theorem countPath_erase_found {m : List (String × Document)} {p : String}
    {kv : String × Document}
    (hfind : m.find? (fun kv => kv.2.path = p) = some kv)
    (hcount : countPath m p ≤ 1)
    (hwf : ∀ x ∈ m, (x.2 : Document).id = x.1) :
    countPath (eraseAssoc m kv.2.id) p = 0 := by
  have hkvp : kv.2.path = p := by simpa using List.find?_some hfind
  have hkvm : kv ∈ m := List.mem_of_find?_eq_some hfind
  have hkey : kv.2.id = kv.1 := hwf kv hkvm
  have hsing : m.filter (fun kv => kv.2.path = p) = [kv] := by
    refine eq_singleton_of_mem_of_length_le_one
      (List.mem_filter.mpr ⟨hkvm, by simp [hkvp]⟩) ?_
    unfold countPath at hcount
    rw [List.countP_eq_length_filter] at hcount
    exact hcount
  unfold countPath eraseAssoc
  rw [List.countP_eq_zero]
  intro x hx
  intro hpred
  obtain ⟨hxm, hxq⟩ := List.mem_filter.mp hx
  have hxs : x ∈ m.filter (fun kv => kv.2.path = p) :=
    List.mem_filter.mpr ⟨hxm, hpred⟩
  rw [hsing, List.mem_singleton] at hxs
  rw [hxs, hkey] at hxq
  simp at hxq

theorem countPath_setAssoc_one {m : List (String × Document)} {p : String}
    {id : String} {doc : Document}
    (h0 : countPath m p = 0) (hp : doc.path = p) :
    countPath (setAssoc m id doc) p = 1 := by
  induction m with
  | nil => simp [countPath, setAssoc, List.countP_cons, hp]
  | cons kv m ih =>
    unfold countPath at h0
    rw [List.countP_cons] at h0
    have hkv : ¬ (kv.2.path = p) := by
      intro hc
      simp [hc] at h0
    have hm : countPath m p = 0 := by
      unfold countPath
      omega
    unfold setAssoc
    by_cases hk : kv.1 = id
    · rw [if_pos hk]
      unfold countPath
      rw [List.countP_cons]
      unfold countPath at hm
      simp [hm, hp]
    · rw [if_neg hk]
      unfold countPath
      rw [List.countP_cons]
      have := ih hm
      unfold countPath at this
      simp [hkv, this]

theorem find?_setAssoc_of_zero {m : List (String × Document)} {p : String}
    {id : String} {doc : Document}
    (h0 : countPath m p = 0) (hp : doc.path = p) :
    (setAssoc m id doc).find? (fun kv => kv.2.path = p) = some (id, doc) := by
  induction m with
  | nil =>
    show List.find? (fun kv => kv.2.path = p) [(id, doc)] = some (id, doc)
    rw [List.find?_cons_of_pos]
    simp [hp]
  | cons kv m ih =>
    unfold countPath at h0
    rw [List.countP_cons] at h0
    have hkv : ¬ (kv.2.path = p) := by
      intro hc
      simp [hc] at h0
    have hm : countPath m p = 0 := by
      unfold countPath
      omega
    unfold setAssoc
    by_cases hk : kv.1 = id
    · rw [if_pos hk]
      rw [List.find?_cons_of_pos]
      simp [hp]
    · rw [if_neg hk]
      have hres := ih hm
      simp [hkv, hres]

theorem addDocument_fst_metadata (st : StoreState) (f c : String) (ty : DocType)
    (ov : Option PartialMetadata) (id now : String) :
    (DocumentStore.addDocument st f c ty ov id now).1.metadata
      = setAssoc st.metadata id (DocumentStore.buildDocument f c ty ov id now) := rfl

theorem addDocument_fst_files (st : StoreState) (f c : String) (ty : DocType)
    (ov : Option PartialMetadata) (id now : String) :
    (DocumentStore.addDocument st f c ty ov id now).1.files = writeSlot st.files id := rfl

theorem buildDocument_path (f c : String) (ty : DocType)
    (ov : Option PartialMetadata) (id now : String) :
    (DocumentStore.buildDocument f c ty ov id now).path = f := rfl

theorem buildDocument_id (f c : String) (ty : DocType)
    (ov : Option PartialMetadata) (id now : String) :
    (DocumentStore.buildDocument f c ty ov id now).id = id := rfl

theorem handleFileAdded_unsupported {env : WatchEnv} {st : SystemState}
    {p id now : String} (h : env.isSupported p = false) :
    FileWatcher.handleFileAdded env st p id now = st := by
  simp [FileWatcher.handleFileAdded, h]

theorem handleFileAdded_skip {env : WatchEnv} {st : SystemState}
    {p id now : String} {kv : String × Document}
    (hfind : st.store.metadata.find? (fun kv => kv.2.path = p) = some kv)
    (hmem : kv.2.id ∈ st.store.files) :
    FileWatcher.handleFileAdded env st p id now = st := by
  unfold FileWatcher.handleFileAdded DocumentStore.getDocumentByPath
  rw [hfind]
  cases hsupp : env.isSupported p <;> simp [hmem, OperationResult.ok]

theorem handleFileAdded_extract_fail {env : WatchEnv} {st : SystemState}
    {p id now : String}
    (hfind : st.store.metadata.find? (fun kv => kv.2.path = p) = none)
    (hproc : env.processFile p = none) :
    FileWatcher.handleFileAdded env st p id now = st := by
  unfold FileWatcher.handleFileAdded DocumentStore.getDocumentByPath
  rw [hfind, hproc]
  cases hsupp : env.isSupported p <;> simp [OperationResult.fail]

theorem handleFileAdded_new {env : WatchEnv} {st : SystemState}
    {p id now : String} {pf : ProcessedFile}
    (hsupp : env.isSupported p = true)
    (hfind : st.store.metadata.find? (fun kv => kv.2.path = p) = none)
    (hproc : env.processFile p = some pf) :
    FileWatcher.handleFileAdded env st p id now
      = { store := (DocumentStore.addDocument st.store p pf.content pf.type
            pf.metadata id now).1
          searchIndex := SearchIndex.addDocument st.searchIndex
            (DocumentStore.buildDocument p pf.content pf.type pf.metadata id now) } := by
  unfold FileWatcher.handleFileAdded DocumentStore.getDocumentByPath
  rw [hfind, hproc, hsupp]
  simp [OperationResult.fail, DocumentStore.addDocument, OperationResult.ok]

theorem handleFileAdded_dead_fail {env : WatchEnv} {st : SystemState}
    {p id now : String} {kv : String × Document}
    (hsupp : env.isSupported p = true)
    (hfind : st.store.metadata.find? (fun kv => kv.2.path = p) = some kv)
    (hmem : kv.2.id ∉ st.store.files)
    (hproc : env.processFile p = none) :
    FileWatcher.handleFileAdded env st p id now
      = { st with store := DocumentStore.evictDocument st.store kv.2.id } := by
  unfold FileWatcher.handleFileAdded DocumentStore.getDocumentByPath
  rw [hfind, hproc, hsupp]
  simp [hmem, OperationResult.fail]

theorem handleFileAdded_dead_new {env : WatchEnv} {st : SystemState}
    {p id now : String} {kv : String × Document} {pf : ProcessedFile}
    (hsupp : env.isSupported p = true)
    (hfind : st.store.metadata.find? (fun kv => kv.2.path = p) = some kv)
    (hmem : kv.2.id ∉ st.store.files)
    (hproc : env.processFile p = some pf) :
    FileWatcher.handleFileAdded env st p id now
      = { store := (DocumentStore.addDocument
            (DocumentStore.evictDocument st.store kv.2.id)
            p pf.content pf.type pf.metadata id now).1
          searchIndex := SearchIndex.addDocument st.searchIndex
            (DocumentStore.buildDocument p pf.content pf.type pf.metadata id now) } := by
  unfold FileWatcher.handleFileAdded DocumentStore.getDocumentByPath
  rw [hfind, hproc, hsupp]
  simp [hmem, OperationResult.fail, DocumentStore.addDocument, OperationResult.ok]

/-- C6: the Reconciler's `added` handling is idempotent per path — for a
store satisfying the path-uniqueness soft invariant at `p` (at most one
record for that path, keys matching record ids), running the handler twice
in sequence with no intervening delete leaves exactly one document for `p`
whenever the resulting store holds a live document for `p`, and the second
run skips (it changes nothing) because a document already exists for that
exact path. -/
theorem handleFileAdded_idempotent
    (env : WatchEnv) (st0 : SystemState) (p id1 id2 now1 now2 : String)
    (hwf : ∀ kv ∈ st0.store.metadata, (kv.2 : Document).id = kv.1)
    (hcount : countPath st0.store.metadata p ≤ 1)
    (hlive : ∃ d ∈ (FileWatcher.handleFileAdded env
        (FileWatcher.handleFileAdded env st0 p id1 now1) p id2 now2).store.metadata.map
          Prod.snd,
      d.path = p ∧ d.id ∈ (FileWatcher.handleFileAdded env
        (FileWatcher.handleFileAdded env st0 p id1 now1) p id2 now2).store.files) :
    countPath (FileWatcher.handleFileAdded env
        (FileWatcher.handleFileAdded env st0 p id1 now1) p id2 now2).store.metadata p
      = 1 ∧
    FileWatcher.handleFileAdded env (FileWatcher.handleFileAdded env st0 p id1 now1)
        p id2 now2
      = FileWatcher.handleFileAdded env st0 p id1 now1 := by
  cases hsupp : env.isSupported p with
  | false =>
    have e1 : FileWatcher.handleFileAdded env st0 p id1 now1 = st0 :=
      handleFileAdded_unsupported hsupp
    have e2 : FileWatcher.handleFileAdded env st0 p id2 now2 = st0 :=
      handleFileAdded_unsupported hsupp
    rw [e1, e2] at hlive ⊢
    obtain ⟨d, hd, hdp, _⟩ := hlive
    have hpos := countPath_pos_of_mem_snd hd hdp
    exact ⟨by omega, rfl⟩
  | true =>
    rcases hfind : st0.store.metadata.find? (fun kv => kv.2.path = p) with _ | kv
    · -- no record for the path yet
      have h0 : countPath st0.store.metadata p = 0 := countPath_zero_of_find_none hfind
      rcases hproc : env.processFile p with _ | pf
      · have e1 : FileWatcher.handleFileAdded env st0 p id1 now1 = st0 :=
          handleFileAdded_extract_fail hfind hproc
        have e2 : FileWatcher.handleFileAdded env st0 p id2 now2 = st0 :=
          handleFileAdded_extract_fail hfind hproc
        rw [e1, e2] at hlive ⊢
        obtain ⟨d, hd, hdp, _⟩ := hlive
        have hpos := countPath_pos_of_mem_snd hd hdp
        omega
      · have e1 := @handleFileAdded_new env st0 p id1 now1 pf hsupp hfind hproc
        have hfind2 : ((DocumentStore.addDocument st0.store p pf.content pf.type
            pf.metadata id1 now1).1).metadata.find? (fun kv => kv.2.path = p)
            = some (id1, DocumentStore.buildDocument p pf.content pf.type
                pf.metadata id1 now1) := by
          rw [addDocument_fst_metadata]
          exact find?_setAssoc_of_zero h0 (buildDocument_path _ _ _ _ _ _)
        have hmem2 : (DocumentStore.buildDocument p pf.content pf.type
            pf.metadata id1 now1).id ∈ ((DocumentStore.addDocument st0.store p
              pf.content pf.type pf.metadata id1 now1).1).files := by
          rw [addDocument_fst_files, buildDocument_id]
          exact mem_writeSlot _ _
        have e2 := @handleFileAdded_skip env
          { store := (DocumentStore.addDocument st0.store p pf.content
              pf.type pf.metadata id1 now1).1
            searchIndex := SearchIndex.addDocument st0.searchIndex
              (DocumentStore.buildDocument p pf.content pf.type pf.metadata
                id1 now1) } p id2 now2
          (id1, DocumentStore.buildDocument p pf.content pf.type pf.metadata id1 now1)
          hfind2 hmem2
        rw [e1, e2]
        refine ⟨?_, rfl⟩
        show countPath ((DocumentStore.addDocument st0.store p pf.content pf.type
          pf.metadata id1 now1).1).metadata p = 1
        rw [addDocument_fst_metadata]
        exact countPath_setAssoc_one h0 (buildDocument_path _ _ _ _ _ _)
    · -- a record for the path exists
      by_cases hmem : kv.2.id ∈ st0.store.files
      · have e1 : FileWatcher.handleFileAdded env st0 p id1 now1 = st0 :=
          handleFileAdded_skip hfind hmem
        have e2 : FileWatcher.handleFileAdded env st0 p id2 now2 = st0 :=
          handleFileAdded_skip hfind hmem
        rw [e1, e2]
        have hkvp : kv.2.path = p := by simpa using List.find?_some hfind
        have hpos := countPath_pos (List.mem_of_find?_eq_some hfind) hkvp
        exact ⟨by omega, rfl⟩
      · have h0 : countPath (DocumentStore.evictDocument st0.store kv.2.id).metadata p
            = 0 := countPath_erase_found hfind hcount hwf
        rcases hproc : env.processFile p with _ | pf
        · have e1 := @handleFileAdded_dead_fail env st0 p id1 now1 kv
            hsupp hfind hmem hproc
          have hfind2 : (DocumentStore.evictDocument st0.store kv.2.id).metadata.find?
              (fun kv => kv.2.path = p) = none := find?_none_of_countPath_zero h0
          have e2 := @handleFileAdded_extract_fail env
            { st0 with store := DocumentStore.evictDocument st0.store kv.2.id }
            p id2 now2 hfind2 hproc
          rw [e1, e2] at hlive ⊢
          obtain ⟨d, hd, hdp, _⟩ := hlive
          have hpos := countPath_pos_of_mem_snd hd hdp
          dsimp only at hpos
          omega
        · have e1 := @handleFileAdded_dead_new env st0 p id1 now1 kv pf
            hsupp hfind hmem hproc
          have hfind2 : ((DocumentStore.addDocument
              (DocumentStore.evictDocument st0.store kv.2.id) p pf.content pf.type
              pf.metadata id1 now1).1).metadata.find? (fun kv => kv.2.path = p)
              = some (id1, DocumentStore.buildDocument p pf.content pf.type
                  pf.metadata id1 now1) := by
            rw [addDocument_fst_metadata]
            exact find?_setAssoc_of_zero h0 (buildDocument_path _ _ _ _ _ _)
          have hmem2 : (DocumentStore.buildDocument p pf.content pf.type
              pf.metadata id1 now1).id ∈ ((DocumentStore.addDocument
              (DocumentStore.evictDocument st0.store kv.2.id) p pf.content pf.type
              pf.metadata id1 now1).1).files := by
            rw [addDocument_fst_files, buildDocument_id]
            exact mem_writeSlot _ _
          have e2 := @handleFileAdded_skip env
            { store := (DocumentStore.addDocument
                (DocumentStore.evictDocument st0.store kv.2.id) p pf.content
                pf.type pf.metadata id1 now1).1
              searchIndex := SearchIndex.addDocument st0.searchIndex
                (DocumentStore.buildDocument p pf.content pf.type pf.metadata
                  id1 now1) } p id2 now2
            (id1, DocumentStore.buildDocument p pf.content pf.type pf.metadata id1 now1)
            hfind2 hmem2
          rw [e1, e2]
          refine ⟨?_, rfl⟩
          show countPath ((DocumentStore.addDocument
            (DocumentStore.evictDocument st0.store kv.2.id) p pf.content pf.type
            pf.metadata id1 now1).1).metadata p = 1
          rw [addDocument_fst_metadata]
          exact countPath_setAssoc_one h0 (buildDocument_path _ _ _ _ _ _)

/-- C6 (witness): two runs of the handler on a fresh store over a
supported, successfully extracted file. -/
theorem handleFileAdded_idempotent_witness :
    countPath (FileWatcher.handleFileAdded c6Env
        (FileWatcher.handleFileAdded c6Env c6State "/w.txt" "a1" "T1")
        "/w.txt" "a2" "T2").store.metadata "/w.txt" = 1 ∧
    FileWatcher.handleFileAdded c6Env
        (FileWatcher.handleFileAdded c6Env c6State "/w.txt" "a1" "T1")
        "/w.txt" "a2" "T2"
      = FileWatcher.handleFileAdded c6Env c6State "/w.txt" "a1" "T1" :=
  handleFileAdded_idempotent c6Env c6State "/w.txt" "a1" "a2" "T1" "T2"
    (by decide) (by decide) (by decide)

end ContextMCP
